import Mathlib

/-!
Formal model of the Mandelbrot renderer in `src/main.rs`.

Modelling conventions:
* `Complex<f64>` is embedded as a pair of exact rationals (`ComplexDouble`);
  `f64` arithmetic is idealized as exact rational arithmetic.
* The escape test `z.norm() > 2.` is embedded as `normSq z > 4`, which is
  equivalent over the reals since both sides of `sqrt (re² + im²) > 2` are
  nonnegative; this keeps every definition executable and decidable.
* `u32` values (`num_iterations`, `diverge_count`) are embedded as `ℕ`; the
  loop counter never exceeds `num_iterations + 1`, so no wrap-around occurs
  for any budget below `2^32 - 1`.
* The `while diverge_count <= num_iterations` loop of `mandelbrot` is embedded
  as a structurally recursive function on a fuel argument, with the loop guard
  kept explicit; fuel `num_iterations + 2` always suffices (the guard fails as
  soon as `diverge_count = num_iterations + 1`), and fuel-irrelevance is proved
  in `mandelbrotGo_fuel_add`.
-/

/-- Model of `Complex<f64>` (`type ComplexDouble = Complex<f64>` in the
source), with `f64` idealized as `ℚ`. -/
structure ComplexDouble where
  re : ℚ
  im : ℚ
deriving DecidableEq, Repr

/-- Squared modulus of a complex number. The source's escape test
`z.norm() > 2.` is modelled as `normSq z > 4`. -/
def normSq (z : ComplexDouble) : ℚ :=
  z.re * z.re + z.im * z.im

/-- One loop-body update `z = z.powi(2) + c`:
`(a + b·i)² + c = (a² − b² + c.re) + (2ab + c.im)·i`. -/
def step (z c : ComplexDouble) : ComplexDouble :=
  ⟨z.re * z.re - z.im * z.im + c.re, 2 * (z.re * z.im) + c.im⟩

/-- The `while diverge_count <= num_iterations` loop of `fn mandelbrot`
(lines 20–27 of `src/main.rs`), with an explicit fuel argument for structural
recursion.  When fuel runs out (which never happens from the initial state with
fuel `num_iterations + 2`) the loop's fall-through value `num_iterations` is
returned, matching line 28 of the source. -/
def mandelbrotGo (c : ComplexDouble) (num_iterations : ℕ) :
    ℕ → ComplexDouble → ℕ → ℕ
  | 0, _, _ => num_iterations
  | fuel + 1, z, diverge_count =>
    if diverge_count ≤ num_iterations then
      if 4 < normSq z then
        diverge_count
      else
        mandelbrotGo c num_iterations fuel (step z c) (diverge_count + 1)
    else num_iterations

/-- Model of `fn mandelbrot(c: &ComplexDouble, num_iterations: u32) -> u32`
(lines 16–29 of `src/main.rs`): `diverge_count` starts at 0, `z` starts at
`0 + 0i`, and the loop runs while `diverge_count <= num_iterations`. -/
def mandelbrot (c : ComplexDouble) (num_iterations : ℕ) : ℕ :=
  mandelbrotGo c num_iterations (num_iterations + 2) ⟨0, 0⟩ 0

/-- The orbit of the recurrence: `orbit c n` is the value of `z` after `n`
applications of `z = z.powi(2) + c` starting from `z = 0 + 0i`. -/
def orbit (c : ComplexDouble) : ℕ → ComplexDouble
  | 0 => ⟨0, 0⟩
  | n + 1 => step (orbit c n) c

lemma mandelbrotGo_zero (c : ComplexDouble) (N : ℕ) (z : ComplexDouble) (d : ℕ) :
    mandelbrotGo c N 0 z d = N := rfl

lemma mandelbrotGo_succ (c : ComplexDouble) (N fuel : ℕ) (z : ComplexDouble) (d : ℕ) :
    mandelbrotGo c N (fuel + 1) z d =
      if d ≤ N then
        if 4 < normSq z then d else mandelbrotGo c N fuel (step z c) (d + 1)
      else N := rfl

lemma normSq_origin : normSq ⟨0, 0⟩ = 0 := by
  norm_num [normSq]

lemma step_zero (c : ComplexDouble) : step ⟨0, 0⟩ c = c := by
  cases c with
  | mk re im => simp [step]

lemma orbit_one (c : ComplexDouble) : orbit c 1 = c := step_zero c

lemma orbit_origin : ∀ n, orbit ⟨0, 0⟩ n = ⟨0, 0⟩ := by
  intro n
  induction n with
  | zero => rfl
  | succ n ih => rw [orbit, ih, step_zero]

/-- More fuel than needed does not change the loop's result. -/
lemma mandelbrotGo_mono (c : ComplexDouble) (N : ℕ) :
    ∀ fuel z d, N + 2 - d ≤ fuel →
      mandelbrotGo c N (fuel + 1) z d = mandelbrotGo c N fuel z d := by
  intro fuel
  induction fuel with
  | zero =>
    intro z d hd
    have hdN : ¬ d ≤ N := by omega
    rw [mandelbrotGo_succ, if_neg hdN, mandelbrotGo_zero]
  | succ f ih =>
    intro z d hd
    rw [mandelbrotGo_succ c N (f + 1) z d, mandelbrotGo_succ c N f z d]
    by_cases hg : d ≤ N
    · rw [if_pos hg, if_pos hg]
      by_cases he : 4 < normSq z
      · rw [if_pos he, if_pos he]
      · rw [if_neg he, if_neg he]
        exact ih (step z c) (d + 1) (by omega)
    · rw [if_neg hg, if_neg hg]

/-- Fuel irrelevance: any surplus of fuel beyond `N + 2 - d` is unused. -/
lemma mandelbrotGo_fuel_add (c : ComplexDouble) (N : ℕ) :
    ∀ k fuel z d, N + 2 - d ≤ fuel →
      mandelbrotGo c N (fuel + k) z d = mandelbrotGo c N fuel z d := by
  intro k
  induction k with
  | zero => intro fuel z d _; rfl
  | succ m ih =>
    intro fuel z d hd
    have h1 : fuel + (m + 1) = (fuel + m) + 1 := by omega
    rw [h1, mandelbrotGo_mono c N (fuel + m) z d (by omega), ih fuel z d hd]

/-- The loop's result is either the fall-through value `N` or a counter value
between the entry counter `d` and `N`. -/
lemma mandelbrotGo_bound (c : ComplexDouble) (N : ℕ) :
    ∀ fuel z d, mandelbrotGo c N fuel z d = N ∨
      (d ≤ mandelbrotGo c N fuel z d ∧ mandelbrotGo c N fuel z d ≤ N) := by
  intro fuel
  induction fuel with
  | zero =>
    intro z d
    left
    rw [mandelbrotGo_zero]
  | succ f ih =>
    intro z d
    rw [mandelbrotGo_succ]
    by_cases hg : d ≤ N
    · rw [if_pos hg]
      by_cases he : 4 < normSq z
      · rw [if_pos he]
        right
        exact ⟨le_refl d, hg⟩
      · rw [if_neg he]
        rcases ih (step z c) (d + 1) with h | ⟨h1, h2⟩
        · left; exact h
        · right; exact ⟨by omega, h2⟩
    · rw [if_neg hg]
      left
      rfl

/-- Characterization of the loop result along the orbit: starting at counter
`d` with state `orbit c d` and all earlier checks passed, every check before
the result passes, and a result strictly below `N` is a counter at which the
escape check fired. -/
lemma mandelbrotGo_char (c : ComplexDouble) (N : ℕ) :
    ∀ fuel d, N + 2 - d ≤ fuel →
      (∀ j, j < d → normSq (orbit c j) ≤ 4) →
      (∀ j, j < mandelbrotGo c N fuel (orbit c d) d → normSq (orbit c j) ≤ 4) ∧
      (mandelbrotGo c N fuel (orbit c d) d < N →
        4 < normSq (orbit c (mandelbrotGo c N fuel (orbit c d) d))) := by
  intro fuel
  induction fuel with
  | zero =>
    intro d hfuel hbound
    rw [mandelbrotGo_zero]
    constructor
    · intro j hj
      exact hbound j (by omega)
    · intro h
      exact absurd h (lt_irrefl N)
  | succ f ih =>
    intro d hfuel hbound
    rw [mandelbrotGo_succ]
    by_cases hg : d ≤ N
    · rw [if_pos hg]
      by_cases he : 4 < normSq (orbit c d)
      · rw [if_pos he]
        exact ⟨hbound, fun _ => he⟩
      · rw [if_neg he]
        have hb2 : ∀ j, j < d + 1 → normSq (orbit c j) ≤ 4 := by
          intro j hj
          rcases Nat.lt_succ_iff_lt_or_eq.mp hj with h | h
          · exact hbound j h
          · rw [h]
            exact le_of_not_lt he
        exact ih (d + 1) (by omega) hb2
    · rw [if_neg hg]
      constructor
      · intro j hj
        exact hbound j (by omega)
      · intro h
        exact absurd h (lt_irrefl N)

/-- If no check among indices `d, …, N − 1` fires, the loop returns `N`
(whether or not the final check at index `N` fires). -/
lemma mandelbrotGo_toN (c : ComplexDouble) (N : ℕ) :
    ∀ fuel d, N + 2 - d ≤ fuel →
      (∀ j, d ≤ j → j < N → normSq (orbit c j) ≤ 4) →
      mandelbrotGo c N fuel (orbit c d) d = N := by
  intro fuel
  induction fuel with
  | zero =>
    intro d _ _
    rw [mandelbrotGo_zero]
  | succ f ih =>
    intro d hfuel hbound
    rw [mandelbrotGo_succ]
    by_cases hg : d ≤ N
    · rw [if_pos hg]
      by_cases he : 4 < normSq (orbit c d)
      · rw [if_pos he]
        rcases Nat.lt_or_ge d N with h | h
        · exact absurd he (not_lt.mpr (hbound d (le_refl d) h))
        · omega
      · rw [if_neg he]
        exact ih (d + 1) (by omega) (fun j h1 h2 => hbound j (by omega) h2)
    · rw [if_neg hg]

/-- Claim C2: `mandelbrot` checks `|z| > 2` before each application of
`z ← z² + c` (including before the first); when the check fires it returns the
number of applications completed so far, and the returned value is always an
integer in `[0, N]`.  Formally: the result is at most `N`, every orbit point
checked before the result index passed the check, and a result strictly below
`N` is exactly an index whose check fired. -/
theorem mandelbrot_escape_count_in_range (c : ComplexDouble) (N : ℕ) :
    mandelbrot c N ≤ N ∧
    (∀ j, j < mandelbrot c N → normSq (orbit c j) ≤ 4) ∧
    (mandelbrot c N < N → 4 < normSq (orbit c (mandelbrot c N))) := by
  have e : mandelbrot c N = mandelbrotGo c N (N + 2) (orbit c 0) 0 := rfl
  have hchar := mandelbrotGo_char c N (N + 2) 0 (by omega)
    (fun j hj => absurd hj (Nat.not_lt_zero j))
  have hbound := mandelbrotGo_bound c N (N + 2) (orbit c 0) 0
  rw [← e] at hchar hbound
  refine ⟨?_, hchar.1, hchar.2⟩
  rcases hbound with h | ⟨_, h2⟩
  · exact le_of_eq h
  · exact h2

/-- Witness for C2 at `c = 3 + 0i`, `N = 2`, where the result is 1. -/
theorem mandelbrot_escape_count_in_range_witness :
    mandelbrot ⟨3, 0⟩ 2 ≤ 2 :=
  (mandelbrot_escape_count_in_range ⟨3, 0⟩ 2).1

/-- For every positive budget the result is nonzero: a result of 0 would mean
the check before the first application fired, but that check sees `z = 0`. -/
lemma mandelbrot_pos_ne_zero (c : ComplexDouble) (N : ℕ) (hN : 1 ≤ N) :
    mandelbrot c N ≠ 0 := by
  have e : mandelbrot c N = mandelbrotGo c N (N + 2) (orbit c 0) 0 := rfl
  have hchar := mandelbrotGo_char c N (N + 2) 0 (by omega)
    (fun j hj => absurd hj (Nat.not_lt_zero j))
  rw [← e] at hchar
  intro h0
  have hesc := hchar.2 (by omega)
  rw [h0] at hesc
  have ho : orbit c 0 = ⟨0, 0⟩ := rfl
  rw [ho, normSq_origin] at hesc
  norm_num at hesc

/-- Claim C1 (counterexample): at `c = 3 + 0i` (so `|c| = 3 > 2`) and budget
`N = 1 ≥ 1`, `mandelbrot` does not return 0 (it returns 1): the check before
the first application sees `z = 0`, which does not escape. -/
theorem mandelbrot_outside_radius_ne_zero :
    (1 : ℕ) ≤ 1 ∧ 4 < normSq ⟨3, 0⟩ ∧ mandelbrot ⟨3, 0⟩ 1 ≠ 0 :=
  ⟨le_refl 1, by norm_num [normSq], mandelbrot_pos_ne_zero ⟨3, 0⟩ 1 (le_refl 1)⟩

/-- Claim C1 (amended): for every budget `N ≥ 1` and every coordinate `c` with
`|c| > 2` (i.e. `normSq c > 4`), `mandelbrot` returns 1: the check at count 0
sees `z = 0` and passes, one application makes `z = c`, and the check at
count 1 fires with exactly one application completed. -/
theorem mandelbrot_outside_radius_eq_one (c : ComplexDouble) (N : ℕ)
    (hN : 1 ≤ N) (hc : 4 < normSq c) : mandelbrot c N = 1 := by
  have e : mandelbrot c N = mandelbrotGo c N (N + 2) (orbit c 0) 0 := rfl
  have hchar := mandelbrotGo_char c N (N + 2) 0 (by omega)
    (fun j hj => absurd hj (Nat.not_lt_zero j))
  rw [← e] at hchar
  by_contra hne
  rcases Nat.lt_or_ge (mandelbrot c N) 1 with h | h
  · have h0 : mandelbrot c N = 0 := by omega
    have hlt : mandelbrot c N < N := by omega
    have hesc := hchar.2 hlt
    rw [h0] at hesc
    have h40 : (4 : ℚ) < 0 := by
      have ho : orbit c 0 = ⟨0, 0⟩ := rfl
      rw [ho, normSq_origin] at hesc
      exact hesc
    norm_num at h40
  · have h2 : 1 < mandelbrot c N := by omega
    have hb := hchar.1 1 h2
    rw [orbit_one] at hb
    exact absurd hc (not_lt.mpr hb)

/-- Witness for the amended C1 at `c = 3 + 0i`, `N = 2`. -/
theorem mandelbrot_outside_radius_eq_one_witness :
    mandelbrot ⟨3, 0⟩ 2 = 1 :=
  mandelbrot_outside_radius_eq_one ⟨3, 0⟩ 2 (by decide) (by norm_num [normSq])

/-- Claim C3: for every budget `N ≥ 0`, `mandelbrot` at the origin `0 + 0i`
returns exactly `N`: `z` stays at `0` through every application, so the escape
check never fires. -/
theorem mandelbrot_origin_eq_budget (N : ℕ) : mandelbrot ⟨0, 0⟩ N = N := by
  have e : mandelbrot ⟨0, 0⟩ N = mandelbrotGo ⟨0, 0⟩ N (N + 2) (orbit ⟨0, 0⟩ 0) 0 := rfl
  rw [e]
  apply mandelbrotGo_toN ⟨0, 0⟩ N (N + 2) 0 (by omega)
  intro j _ _
  rw [orbit_origin j, normSq_origin]
  norm_num

/-- Claim C4: `mandelbrot` terminates for every coordinate and budget — the
loop exits within `N + 2` guard evaluations, so adding any surplus fuel does
not change the result — and if the modulus never exceeds 2 during the first
`N` applications, it returns exactly `N`. -/
theorem mandelbrot_terminates_and_completes (c : ComplexDouble) (N : ℕ) :
    (∀ extra, mandelbrotGo c N (N + 2 + extra) ⟨0, 0⟩ 0 = mandelbrot c N) ∧
    ((∀ j, j < N → normSq (orbit c j) ≤ 4) → mandelbrot c N = N) := by
  constructor
  · intro extra
    exact mandelbrotGo_fuel_add c N extra (N + 2) ⟨0, 0⟩ 0 (by omega)
  · intro hb
    have e : mandelbrot c N = mandelbrotGo c N (N + 2) (orbit c 0) 0 := rfl
    rw [e]
    exact mandelbrotGo_toN c N (N + 2) 0 (by omega) (fun j _ hj => hb j hj)

/-- Witness for C4 at `c = 0 + 0i`, `N = 1`, surplus fuel 5. -/
theorem mandelbrot_terminates_and_completes_witness :
    mandelbrot ⟨0, 0⟩ 1 = 1 ∧
    mandelbrotGo ⟨0, 0⟩ 1 (1 + 2 + 5) ⟨0, 0⟩ 0 = mandelbrot ⟨0, 0⟩ 1 :=
  ⟨(mandelbrot_terminates_and_completes ⟨0, 0⟩ 1).2
      (by
        intro j hj
        have hj0 : j = 0 := by omega
        rw [hj0, orbit_origin 0, normSq_origin]
        norm_num),
   (mandelbrot_terminates_and_completes ⟨0, 0⟩ 1).1 5⟩

/-- Claim C5: for every coordinate `c`, `mandelbrot` with budget 0 returns 0:
the single check before the first application sees `z = 0`, the one loop pass
increments the counter past the budget, and the fall-through returns the
budget, which is 0. -/
theorem mandelbrot_budget_zero (c : ComplexDouble) : mandelbrot c 0 = 0 := by
  have e : mandelbrot c 0 = mandelbrotGo c 0 (0 + 2) (orbit c 0) 0 := rfl
  rw [e]
  exact mandelbrotGo_toN c 0 (0 + 2) 0 (by omega)
    (fun j _ hj => absurd hj (Nat.not_lt_zero j))

/-- Claim C9: `mandelbrot` is deterministic — two calls with identical complex
coordinate and identical budget yield identical results. -/
theorem mandelbrot_deterministic (c1 c2 : ComplexDouble) (N1 N2 : ℕ)
    (hc : c1 = c2) (hN : N1 = N2) : mandelbrot c1 N1 = mandelbrot c2 N2 := by
  rw [hc, hN]

/-- Witness for C9 at `c = 3 + 0i`, `N = 5`. -/
theorem mandelbrot_deterministic_witness :
    mandelbrot ⟨3, 0⟩ 5 = mandelbrot ⟨3, 0⟩ 5 :=
  mandelbrot_deterministic ⟨3, 0⟩ ⟨3, 0⟩ 5 5 rfl rfl

/-- Claim C10: the escape check executes at counts 0 through `N`, and the
result never exceeds `N`; a coordinate escapes at the final check (after the
`N`-th application) or later exactly when no check among counts `0, …, N − 1`
fires, and in that case the result is `N` — indistinguishable at the interface
from a point that never diverged. -/
theorem mandelbrot_final_check_indistinguishable (c : ComplexDouble) (N : ℕ) :
    mandelbrot c N ≤ N ∧
    (mandelbrot c N = N ↔ ∀ j, j < N → normSq (orbit c j) ≤ 4) := by
  have e : mandelbrot c N = mandelbrotGo c N (N + 2) (orbit c 0) 0 := rfl
  have hchar := mandelbrotGo_char c N (N + 2) 0 (by omega)
    (fun j hj => absurd hj (Nat.not_lt_zero j))
  have hbound := mandelbrotGo_bound c N (N + 2) (orbit c 0) 0
  rw [← e] at hchar hbound
  have hle : mandelbrot c N ≤ N := by
    rcases hbound with h | ⟨_, h2⟩
    · exact le_of_eq h
    · exact h2
  refine ⟨hle, ?_, ?_⟩
  · intro hEq j hj
    exact hchar.1 j (by omega)
  · intro hb
    rw [e]
    exact mandelbrotGo_toN c N (N + 2) 0 (by omega) (fun j _ hj => hb j hj)

/-- Witness for C10 at `c = 3 + 0i`, `N = 1`: the orbit first escapes exactly
at the check following the first (budget-th) application, and the result is
the budget 1. -/
theorem mandelbrot_final_check_indistinguishable_witness :
    mandelbrot ⟨3, 0⟩ 1 = 1 ∧ mandelbrot ⟨3, 0⟩ 1 ≤ 1 :=
  ⟨(mandelbrot_final_check_indistinguishable ⟨3, 0⟩ 1).2.mpr
      (by
        intro j hj
        have hj0 : j = 0 := by omega
        have ho : orbit ⟨3, 0⟩ 0 = ⟨0, 0⟩ := rfl
        rw [hj0, ho, normSq_origin]
        norm_num),
   (mandelbrot_final_check_indistinguishable ⟨3, 0⟩ 1).1⟩

/-- The viewport built at line 40 of `src/main.rs`
(`build_cartesian_2d(-2.1f64..0.6f64, -1.2f64..1.2f64)`): independent
real-axis and imaginary-axis bounds, with `f64` idealized as `ℚ`. -/
structure Viewport where
  real_min : ℚ
  real_max : ℚ
  imag_min : ℚ
  imag_max : ℚ

/-- The pixel decoding of the raster loop (lines 62–66 of `src/main.rs`):
linear index `k` maps to column `k % width` and row `k / width`
(`k % samples.0` and `k / samples.0` in the source). -/
def pixelIndex (width k : ℕ) : ℕ × ℕ :=
  (k % width, k / width)

/-- The sequence of `(col, row)` pairs visited by
`for k in 0..(samples.0 * samples.1)` in `draw_mandelbrot`. -/
def rasterPixels (width height : ℕ) : List (ℕ × ℕ) :=
  (List.range (width * height)).map (pixelIndex width)

/-- The per-axis step sizes of lines 55–58 of `src/main.rs`:
`((real.end - real.start) / samples.0, (complex.end - complex.start) /
samples.1)`, where `samples` are the pixel-range extents of the plotting
area. -/
def stepSizes (v : Viewport) (width height : ℕ) : ℚ × ℚ :=
  ((v.real_max - v.real_min) / (width : ℚ),
   (v.imag_max - v.imag_min) / (height : ℚ))

/-- The complex coordinate computed for loop index `k` (lines 63–66 of
`src/main.rs`): `real.start + step.0 * (k % samples.0)` and
`complex.start + step.1 * (k / samples.0)`. -/
def pixelCoord (v : Viewport) (width height k : ℕ) : ComplexDouble :=
  ⟨v.real_min + (stepSizes v width height).1 * ((k % width : ℕ) : ℚ),
   v.imag_min + (stepSizes v width height).2 * ((k / width : ℕ) : ℚ)⟩

/-- Model of plotters colors as used in `draw_mandelbrot`: the fixed `BLACK`
constant, or `HSLColor(h, s, l)`. -/
inductive Color where
  | black : Color
  | hsl (h s l : ℚ) : Color
deriving DecidableEq, Repr

/-- `const NUM_CONVERGE: u32 = 100;` (line 60 of `src/main.rs`). -/
def NUM_CONVERGE : ℕ := 100

/-- The color assignment of lines 72–76 of `src/main.rs`:
`if count != NUM_CONVERGE { HSLColor(count as f64 / 100.0, 1.0, 0.5) }
else { BLACK }`. -/
def pixelColor (count : ℕ) : Color :=
  if count ≠ NUM_CONVERGE then Color.hsl ((count : ℚ) / 100) 1 (1 / 2)
  else Color.black

lemma pixelIndex_inj (w k1 k2 : ℕ) (h : pixelIndex w k1 = pixelIndex w k2) :
    k1 = k2 := by
  unfold pixelIndex at h
  have h1 : k1 % w = k2 % w := congrArg Prod.fst h
  have h2 : k1 / w = k2 / w := congrArg Prod.snd h
  have e1 := Nat.div_add_mod k1 w
  have e2 := Nat.div_add_mod k2 w
  rw [← e1, ← e2, h1, h2]

lemma rasterPixels_mem (w h : ℕ) (p : ℕ × ℕ) :
    p ∈ rasterPixels w h ↔ p.1 < w ∧ p.2 < h := by
  unfold rasterPixels
  simp only [List.mem_map, List.mem_range]
  constructor
  · rintro ⟨k, hk, rfl⟩
    have hw : 0 < w := by
      rcases Nat.eq_zero_or_pos w with h0 | h0
      · rw [h0, Nat.zero_mul] at hk
        exact absurd hk (Nat.not_lt_zero k)
      · exact h0
    refine ⟨Nat.mod_lt k hw, ?_⟩
    have : k < w * h := hk
    exact Nat.div_lt_of_lt_mul this
  · rintro ⟨h1, h2⟩
    have hw : 0 < w := by omega
    refine ⟨p.2 * w + p.1, ?_, ?_⟩
    · have hstep : p.2 * w + p.1 < (p.2 + 1) * w := by
        have : (p.2 + 1) * w = p.2 * w + w := by ring
        omega
      have hmul : (p.2 + 1) * w ≤ h * w := Nat.mul_le_mul_right w h2
      calc p.2 * w + p.1 < (p.2 + 1) * w := hstep
        _ ≤ h * w := hmul
        _ = w * h := Nat.mul_comm h w
    · unfold pixelIndex
      have hm : (p.2 * w + p.1) % w = p.1 := by
        rw [Nat.mul_comm p.2 w, Nat.mul_add_mod]
        exact Nat.mod_eq_of_lt h1
      have hd : (p.2 * w + p.1) / w = p.2 := by
        rw [Nat.mul_comm p.2 w, Nat.mul_add_div hw, Nat.div_eq_of_lt h1,
          Nat.add_zero]
      rw [hm, hd]

lemma rasterPixels_nodup (w h : ℕ) : (rasterPixels w h).Nodup := by
  unfold rasterPixels
  refine List.Nodup.map_on ?_ (List.nodup_range _)
  intro k1 _ k2 _ hk
  exact pixelIndex_inj w k1 k2 hk

/-- Claim C6: the raster loop enumerates every integer pixel pair
`(col, row)` with `0 ≤ col < width` and `0 ≤ row < height` exactly once —
the loop visits `width * height` linear indices, and the decoding
`k ↦ (k % width, k / width)` covers each grid cell exactly once (so the
per-pixel write runs exactly once per cell). -/
theorem raster_grid_exactly_once (w h : ℕ) :
    (rasterPixels w h).length = w * h ∧
    (rasterPixels w h).Nodup ∧
    ∀ p : ℕ × ℕ, p ∈ rasterPixels w h ↔ p.1 < w ∧ p.2 < h := by
  refine ⟨?_, rasterPixels_nodup w h, rasterPixels_mem w h⟩
  unfold rasterPixels
  rw [List.length_map, List.length_range]

/-- Witness for C6 on the 2 × 1 grid at pixel `(1, 0)`. -/
theorem raster_grid_exactly_once_witness :
    (rasterPixels 2 1).length = 2 * 1 ∧
    (((1, 0) : ℕ × ℕ) ∈ rasterPixels 2 1 ↔
      ((1, 0) : ℕ × ℕ).1 < 2 ∧ ((1, 0) : ℕ × ℕ).2 < 1) :=
  ⟨(raster_grid_exactly_once 2 1).1, (raster_grid_exactly_once 2 1).2.2 (1, 0)⟩

/-- Claim C7: the pixel-to-plane mapping is the affine transform — with
`step_real = (real_max - real_min) / width` and
`step_imag = (imag_max - imag_min) / height` computed once from the
plotting-area pixel extents, the loop index encoding pixel `(col, row)` is
mapped to `(real_min + step_real * col, imag_min + step_imag * row)`. -/
theorem pixel_affine_map (v : Viewport) (w h col row : ℕ) (hcol : col < w) :
    pixelCoord v w h (row * w + col) =
      ⟨v.real_min + (v.real_max - v.real_min) / (w : ℚ) * (col : ℚ),
       v.imag_min + (v.imag_max - v.imag_min) / (h : ℚ) * (row : ℚ)⟩ := by
  have hw : 0 < w := by omega
  have hm : (row * w + col) % w = col := by
    rw [Nat.mul_comm row w, Nat.mul_add_mod]
    exact Nat.mod_eq_of_lt hcol
  have hd : (row * w + col) / w = row := by
    rw [Nat.mul_comm row w, Nat.mul_add_div hw, Nat.div_eq_of_lt hcol,
      Nat.add_zero]
  unfold pixelCoord stepSizes
  rw [hm, hd]

/-- Witness for C7 on the unit viewport with a 2 × 2 grid at pixel
`(1, 1)` (loop index 3). -/
theorem pixel_affine_map_witness :
    pixelCoord ⟨0, 1, 0, 1⟩ 2 2 (1 * 2 + 1) =
      ⟨(0 : ℚ) + ((1 : ℚ) - (0 : ℚ)) / ((2 : ℕ) : ℚ) * ((1 : ℕ) : ℚ),
       (0 : ℚ) + ((1 : ℚ) - (0 : ℚ)) / ((2 : ℕ) : ℚ) * ((1 : ℕ) : ℚ)⟩ :=
  pixel_affine_map ⟨0, 1, 0, 1⟩ 2 2 1 1 (by omega)

/-- Claim C8: for every pixel, if the escape count equals the budget
`NUM_CONVERGE` the pixel gets the fixed in-set color (solid black); otherwise
it gets an HSL color with hue `count / NUM_CONVERGE` (the escape count
normalized to `[0, 1)`), full saturation 1, and mid lightness 1/2. -/
theorem color_assignment (count : ℕ) :
    (count = NUM_CONVERGE → pixelColor count = Color.black) ∧
    (count < NUM_CONVERGE →
      pixelColor count = Color.hsl ((count : ℚ) / (NUM_CONVERGE : ℚ)) 1 (1 / 2) ∧
      0 ≤ (count : ℚ) / (NUM_CONVERGE : ℚ) ∧
      (count : ℚ) / (NUM_CONVERGE : ℚ) < 1) := by
  constructor
  · intro hEq
    unfold pixelColor
    rw [if_neg (by simp [hEq])]
  · intro hlt
    have hne : count ≠ NUM_CONVERGE := Nat.ne_of_lt hlt
    refine ⟨?_, ?_, ?_⟩
    · unfold pixelColor
      rw [if_pos hne]
      norm_num [NUM_CONVERGE]
    · apply div_nonneg (Nat.cast_nonneg count)
      norm_num [NUM_CONVERGE]
    · rw [div_lt_one (by norm_num [NUM_CONVERGE])]
      have : (count : ℚ) < ((NUM_CONVERGE : ℕ) : ℚ) := by
        exact_mod_cast hlt
      exact this

/-- Witness for C8 at the in-set count 100 and the escaping count 99. -/
theorem color_assignment_witness :
    pixelColor 100 = Color.black ∧
    pixelColor 99 = Color.hsl (((99 : ℕ) : ℚ) / (NUM_CONVERGE : ℚ)) 1 (1 / 2) :=
  ⟨(color_assignment 100).1 rfl,
   ((color_assignment 99).2 (by norm_num [NUM_CONVERGE])).1⟩
